import Mathlib

/-!
Verification development for the gcp_text_to_speech repository (src/main.go).

The program splits a text into bounded-size chunks (`chunkText`), fans one
concurrent synthesis task per chunk out to the Google text-to-speech service
(`synthesizeChunks`), and writes the per-chunk audio to the output file in
index order (`main`, final loop).

Modelling conventions:
- Go strings are modelled as `List Char`. Go indexes and slices strings by
  bytes; the model is exact for texts whose characters are single-byte
  (ASCII or Latin-1). Wider Unicode space classes of `unicode.IsSpace` and
  byte-level cuts inside multi-byte runes are outside the model.
- Audio byte slices are modelled as `List Nat`.
- The remote service is a parameter `f : String → String → String → Option Audio`
  (text, voice, languageCode); `none` models a failed RPC.
- Concurrency of the errgroup is modelled by an explicit completion order:
  the tasks run atomically in the order given by a list of indices. A task
  scheduled after the first failure observes the cancelled group context and
  fails without writing its slot, mirroring errgroup cancellation. The outer
  context is modelled as a boolean that is constant for the whole call.
-/

/-- Whitespace predicate of Go `unicode.IsSpace` restricted to the Latin-1
range, as used by `strings.TrimSpace` in src/main.go. -/
def goIsSpace (c : Char) : Bool :=
  c = ' ' || c = '\t' || c = '\n' || c = '\x0B' || c = '\x0C' || c = '\r'
    || c = Char.ofNat 0x85 || c = Char.ofNat 0xA0

/-- Model of `strings.TrimSpace` (src/main.go lines 118-119): remove leading
and trailing whitespace. -/
def trimSpace (s : List Char) : List Char :=
  ((s.dropWhile goIsSpace).reverse.dropWhile goIsSpace).reverse

/-- Model of `strings.LastIndex(s, " ")` (src/main.go line 114): the index of
the last space character, `none` for the Go result -1. -/
def lastSpaceIdx : List Char → Option Nat
  | [] => none
  | c :: cs =>
    match lastSpaceIdx cs with
    | some i => some (i + 1)
    | none => if c = ' ' then some 0 else none

/-- The split position chosen by one iteration of the `chunkText` loop
(src/main.go lines 114-117): the last space in the leading window of `size`
characters, or `size` itself when the window has no space. -/
def goSplit (input : List Char) (size : Nat) : Nat :=
  match lastSpaceIdx (input.take size) with
  | some i => i
  | none => size

/-- Fuel-indexed model of the `chunkText` loop (src/main.go lines 111-125).
With fuel larger than the input length and a positive size the fuel never
runs out (`chunkText` below supplies `input.length + 1`). -/
def chunkTextFuel : Nat → List Char → Nat → List (List Char)
  | 0, _, _ => []
  | fuel + 1, input, size =>
    if size < input.length then
      trimSpace (input.take (goSplit input size)) ::
        chunkTextFuel fuel (trimSpace (input.drop (goSplit input size))) size
    else if 0 < input.length then [input]
    else []

/-- Model of `chunkText` (src/main.go lines 111-125): repeatedly split the
leading window at the last space (or hard-cut at `size`), trimming the
emitted chunk and the remainder; emit the final remainder untrimmed if it is
non-empty. -/
def chunkText (input : List Char) (size : Nat) : List (List Char) :=
  chunkTextFuel (input.length + 1) input size

-- Basic facts about the helper functions.

theorem length_dropWhile_le_self (p : Char → Bool) (l : List Char) :
    (l.dropWhile p).length ≤ l.length := by
  induction l with
  | nil => simp [List.dropWhile]
  | cons c cs ih =>
    simp only [List.dropWhile]
    by_cases h : p c
    · simp [h]; omega
    · simp [h]

theorem trimSpace_length_le (s : List Char) : (trimSpace s).length ≤ s.length := by
  simp only [trimSpace, List.length_reverse]
  calc ((s.dropWhile goIsSpace).reverse.dropWhile goIsSpace).length
      ≤ (s.dropWhile goIsSpace).reverse.length := length_dropWhile_le_self _ _
    _ = (s.dropWhile goIsSpace).length := List.length_reverse _
    _ ≤ s.length := length_dropWhile_le_self _ _

theorem trimSpace_nil : trimSpace [] = [] := rfl

theorem trimSpace_cons_ws_length (c : Char) (t : List Char) (hc : goIsSpace c = true) :
    (trimSpace (c :: t)).length ≤ t.length := by
  have h1 : (c :: t).dropWhile goIsSpace = t.dropWhile goIsSpace := by
    simp [List.dropWhile, hc]
  calc (trimSpace (c :: t)).length
      ≤ (trimSpace t).length := by
        simp only [trimSpace, h1]; exact le_refl _
    _ ≤ t.length := trimSpace_length_le t

-- Specification of lastSpaceIdx.

theorem lastSpaceIdx_none_spec (s : List Char) (h : lastSpaceIdx s = none) :
    ∀ j, s.get? j ≠ some ' ' := by
  induction s with
  | nil => intro j; simp
  | cons c cs ih =>
    intro j
    simp only [lastSpaceIdx] at h
    cases hcs : lastSpaceIdx cs with
    | some i => rw [hcs] at h; simp at h
    | none =>
      rw [hcs] at h
      by_cases hc : c = ' '
      · simp [hc] at h
      · cases j with
        | zero => simp [List.get?]; exact hc
        | succ j => exact ih hcs j

theorem lastSpaceIdx_some_spec (s : List Char) (i : Nat) (h : lastSpaceIdx s = some i) :
    i < s.length ∧ s.get? i = some ' ' ∧ ∀ j, i < j → s.get? j ≠ some ' ' := by
  induction s generalizing i with
  | nil => simp [lastSpaceIdx] at h
  | cons c cs ih =>
    simp only [lastSpaceIdx] at h
    cases hcs : lastSpaceIdx cs with
    | some k =>
      rw [hcs] at h
      simp only [Option.some.injEq] at h
      obtain ⟨hk1, hk2, hk3⟩ := ih k hcs
      refine ⟨?_, ?_, ?_⟩
      · simp [List.length_cons]; omega
      · rw [← h]; simpa [List.get?] using hk2
      · intro j hj
        cases j with
        | zero => omega
        | succ j =>
          simp only [List.get?]
          exact hk3 j (by omega)
    | none =>
      rw [hcs] at h
      by_cases hc : c = ' '
      · subst hc
        simp at h
        subst h
        refine ⟨by simp, by simp [List.get?], ?_⟩
        intro j hj
        cases j with
        | zero => omega
        | succ j => exact lastSpaceIdx_none_spec cs hcs j
      · simp [hc] at h

theorem lastSpaceIdx_isSome_of_mem (s : List Char) (h : ' ' ∈ s) :
    lastSpaceIdx s ≠ none := by
  intro hnone
  obtain ⟨n, hn⟩ := List.mem_iff_get?.mp h
  exact lastSpaceIdx_none_spec s hnone n hn

theorem goSplit_le (input : List Char) (size : Nat) : goSplit input size ≤ size := by
  unfold goSplit
  cases h : lastSpaceIdx (input.take size) with
  | none => exact le_refl _
  | some i =>
    have h1 := (lastSpaceIdx_some_spec _ i h).1
    simp only [List.length_take] at h1
    have h2 : i < size := lt_of_lt_of_le h1 (min_le_left _ _)
    show i ≤ size
    omega

-- The remainder shrinks at every loop iteration (for positive size), so the
-- fuel `input.length + 1` used by `chunkText` never runs out.

theorem rest_length_lt (input : List Char) (size : Nat)
    (hsz : 1 ≤ size) (hlen : size < input.length) :
    (trimSpace (input.drop (goSplit input size))).length < input.length := by
  unfold goSplit
  cases h : lastSpaceIdx (input.take size) with
  | none =>
    show (trimSpace (input.drop size)).length < input.length
    calc (trimSpace (input.drop size)).length
        ≤ (input.drop size).length := trimSpace_length_le _
      _ = input.length - size := by simp [List.length_drop]
      _ < input.length := by omega
  | some i =>
    show (trimSpace (input.drop i)).length < input.length
    by_cases hi : i = 0
    · subst hi
      have hsp := (lastSpaceIdx_some_spec _ 0 h).2.1
      cases input with
      | nil => simp at hlen
      | cons c t =>
        have hc : c = ' ' := by
          cases size with
          | zero => omega
          | succ m =>
            simp only [List.take, List.get?] at hsp
            exact Option.some.inj hsp
        subst hc
        have h1 : (trimSpace (' ' :: t)).length ≤ t.length :=
          trimSpace_cons_ws_length _ _ (by decide)
        simp only [List.drop_zero]
        simp only [List.length_cons]
        omega
    · have h1 := (lastSpaceIdx_some_spec _ i h).1
      simp only [List.length_take] at h1
      calc (trimSpace (input.drop i)).length
          ≤ (input.drop i).length := trimSpace_length_le _
        _ = input.length - i := by simp [List.length_drop]
        _ < input.length := by omega

-- With enough fuel the result of chunkTextFuel does not depend on the fuel.

theorem chunkTextFuel_irrel (size : Nat) (hsz : 1 ≤ size) :
    ∀ (f1 f2 : Nat) (input : List Char),
      input.length < f1 → input.length < f2 →
      chunkTextFuel f1 input size = chunkTextFuel f2 input size := by
  intro f1
  induction f1 with
  | zero => intro f2 input h1 h2; omega
  | succ f ih =>
    intro f2 input h1 h2
    cases f2 with
    | zero => omega
    | succ g =>
      simp only [chunkTextFuel]
      by_cases hl : size < input.length
      · rw [if_pos hl, if_pos hl]
        have hd := rest_length_lt input size hsz hl
        congr 1
        exact ih g _ (by omega) (by omega)
      · rw [if_neg hl, if_neg hl]

-- Unfolding equations for chunkText.

theorem chunkText_nil (size : Nat) : chunkText [] size = [] := by
  simp [chunkText, chunkTextFuel]

theorem chunkText_single (input : List Char) (size : Nat)
    (h1 : input.length ≤ size) (h2 : input ≠ []) :
    chunkText input size = [input] := by
  unfold chunkText
  simp only [chunkTextFuel]
  rw [if_neg (by omega), if_pos (List.length_pos.mpr h2)]

theorem chunkText_cons (input : List Char) (size : Nat)
    (hsz : 1 ≤ size) (hlen : size < input.length) :
    chunkText input size =
      trimSpace (input.take (goSplit input size)) ::
        chunkText (trimSpace (input.drop (goSplit input size))) size := by
  conv_lhs => unfold chunkText
  simp only [chunkTextFuel]
  rw [if_pos hlen]
  have hd := rest_length_lt input size hsz hlen
  congr 1
  exact chunkTextFuel_irrel size hsz input.length _ _ hd (by omega)

theorem chunkText_eq_nil_iff (input : List Char) (size : Nat) :
    chunkText input size = [] ↔ input = [] := by
  constructor
  · intro h
    by_contra hne
    unfold chunkText at h
    simp only [chunkTextFuel] at h
    by_cases hl : size < input.length
    · rw [if_pos hl] at h; simp at h
    · rw [if_neg hl, if_pos (List.length_pos.mpr hne)] at h; simp at h
  · intro h; subst h; exact chunkText_nil size

/-- C4: for every non-empty text T and positive size S, every element of
chunkText T S has length at most S. -/
theorem chunkText_chunk_length_le (T : List Char) (S : Nat)
    (hT : T ≠ []) (hS : 1 ≤ S) :
    ∀ c ∈ chunkText T S, c.length ≤ S := by
  have main : ∀ (fuel : Nat) (input : List Char),
      ∀ c ∈ chunkTextFuel fuel input S, c.length ≤ S := by
    intro fuel
    induction fuel with
    | zero => intro input c hc; simp [chunkTextFuel] at hc
    | succ f ih =>
      intro input c hc
      simp only [chunkTextFuel] at hc
      by_cases h1 : S < input.length
      · rw [if_pos h1] at hc
        rcases List.mem_cons.mp hc with h | h
        · subst h
          calc (trimSpace (input.take (goSplit input S))).length
              ≤ (input.take (goSplit input S)).length := trimSpace_length_le _
            _ ≤ goSplit input S := by
                simp only [List.length_take]; exact min_le_left _ _
            _ ≤ S := goSplit_le input S
        · exact ih _ c h
      · rw [if_neg h1] at hc
        by_cases h2 : 0 < input.length
        · rw [if_pos h2] at hc
          simp only [List.mem_singleton] at hc
          subst hc
          omega
        · rw [if_neg h2] at hc; simp at hc
  exact main _ T

/-- Witness for C4: at T = "ab" and S = 1 the hypotheses hold and both
produced chunks ("a" and "b") have length at most 1. -/
theorem chunkText_chunk_length_le_witness :
    ("ab".toList ≠ [] ∧ 1 ≤ 1) ∧ ∀ c ∈ chunkText "ab".toList 1, c.length ≤ 1 :=
  ⟨⟨by decide, le_refl 1⟩, chunkText_chunk_length_le "ab".toList 1 (by decide) (le_refl 1)⟩

/-- C5: evaluation of the code at the failing input: for the text " a"
(leading space) and size 1, the first emitted chunk is the empty string,
contradicting the specified invariant that no chunk is empty. The split
index for the window " " is 0, so the chunk trimSpace(input[:0]) is empty. -/
theorem chunkText_emits_empty_chunk :
    chunkText " a".toList 1 = [[], ['a']] ∧ [] ∈ chunkText " a".toList 1 := by
  decide

/-- C6 counterexample: at T = " a" and S = 2 the hypotheses of the claim hold
(length 2 ≤ 2, trimmed text "a" non-empty), the result is one chunk, but the
chunk is " a" itself, not the trimmed "a": the final chunk of the loop is
appended untrimmed (src/main.go lines 121-123). -/
theorem chunkText_small_not_trimmed :
    " a".toList.length ≤ 2 ∧ trimSpace " a".toList ≠ [] ∧
      chunkText " a".toList 2 = [" a".toList] ∧
      chunkText " a".toList 2 ≠ [trimSpace " a".toList] := by
  decide

/-- C6 (amended): for every text T and positive size S with T.length ≤ S and
T non-empty after trimming, chunkText T S returns exactly one chunk, and that
chunk is T itself (untrimmed; it equals the trimmed T exactly when T carries
no leading or trailing whitespace). -/
theorem chunkText_whole_fits (T : List Char) (S : Nat) (hS : 1 ≤ S)
    (h1 : T.length ≤ S) (h2 : trimSpace T ≠ []) :
    chunkText T S = [T] := by
  apply chunkText_single T S h1
  intro hT
  exact h2 (by rw [hT]; rfl)

/-- Witness for C6 (amended): at T = " a" and S = 3 the hypotheses hold and
the result is the single untrimmed chunk " a". -/
theorem chunkText_whole_fits_witness :
    (1 ≤ 3 ∧ " a".toList.length ≤ 3 ∧ trimSpace " a".toList ≠ []) ∧
      chunkText " a".toList 3 = [" a".toList] :=
  ⟨⟨by decide, by decide, by decide⟩,
    chunkText_whole_fits " a".toList 3 (by decide) (by decide) (by decide)⟩

-- Whitespace normalization: the list of maximal non-whitespace runs (words)
-- of a text. Two texts are equal up to collapsing and trimming whitespace
-- exactly when they have the same words.

/-- One step of the right fold computing the words of a text: the state is
the word currently being read (to the right of the cursor) and the list of
completed words. -/
def wordsStep (c : Char) (st : List Char × List (List Char)) :
    List Char × List (List Char) :=
  if goIsSpace c then ([], if st.1 = [] then st.2 else st.1 :: st.2)
  else (c :: st.1, st.2)

/-- The maximal non-whitespace runs of a text, in order. -/
def wordsOf (s : List Char) : List (List Char) :=
  let st := s.foldr wordsStep ([], [])
  if st.1 = [] then st.2 else st.1 :: st.2

/-- Join a list of chunks with a single space between consecutive chunks. -/
def rejoinWithSpaces : List (List Char) → List Char
  | [] => []
  | [c] => c
  | c :: c2 :: cs => c ++ ' ' :: rejoinWithSpaces (c2 :: cs)

/-- Whitespace normalization of a text: its words joined by single spaces
(collapses runs of whitespace and trims both ends). -/
def normalizeWs (s : List Char) : List Char :=
  rejoinWithSpaces (wordsOf s)

-- The fold with an arbitrary initial word list just appends that list.

theorem wordsOf_eq (s : List Char) :
    wordsOf s =
      if (s.foldr wordsStep ([], [])).1 = [] then (s.foldr wordsStep ([], [])).2
      else (s.foldr wordsStep ([], [])).1 :: (s.foldr wordsStep ([], [])).2 := rfl

theorem foldr_wordsStep_init (a : List Char) (W : List (List Char)) :
    a.foldr wordsStep ([], W) =
      ((a.foldr wordsStep ([], [])).1, (a.foldr wordsStep ([], [])).2 ++ W) := by
  induction a with
  | nil => simp
  | cons c t ih =>
    simp only [List.foldr_cons, ih]
    by_cases hc : goIsSpace c
    · simp only [wordsStep, hc, if_pos]
      by_cases h1 : (t.foldr wordsStep ([], [])).1 = []
      · simp [h1]
      · simp [h1]
    · simp [wordsStep, hc]

theorem wordsOf_append_ws (a b : List Char) (c : Char) (hc : goIsSpace c = true) :
    wordsOf (a ++ c :: b) = wordsOf a ++ wordsOf b := by
  unfold wordsOf
  rw [List.foldr_append]
  have hstep : (c :: b).foldr wordsStep ([], []) = ([], wordsOf b) := by
    simp only [List.foldr_cons, wordsStep, hc, if_pos]
    unfold wordsOf
    by_cases h1 : (b.foldr wordsStep ([], [])).1 = []
    · simp [h1]
    · simp [h1]
  rw [show (c :: b).foldr wordsStep ([], []) = ([], wordsOf b) from hstep]
  rw [foldr_wordsStep_init a (wordsOf b)]
  by_cases h1 : (a.foldr wordsStep ([], [])).1 = []
  · simp [h1, wordsOf_eq]
  · simp [h1, wordsOf_eq]

theorem wordsOf_ws_cons (c : Char) (s : List Char) (hc : goIsSpace c = true) :
    wordsOf (c :: s) = wordsOf s := by
  have := wordsOf_append_ws [] s c hc
  simpa using this

theorem wordsOf_all_ws (b : List Char) (hb : b.all goIsSpace = true) :
    wordsOf b = [] := by
  induction b with
  | nil => rfl
  | cons c t ih =>
    simp only [List.all_cons, Bool.and_eq_true] at hb
    rw [wordsOf_ws_cons c t hb.1]
    exact ih hb.2

theorem wordsOf_append_all_ws (a b : List Char) (hb : b.all goIsSpace = true) :
    wordsOf (a ++ b) = wordsOf a := by
  cases b with
  | nil => simp
  | cons c t =>
    simp only [List.all_cons, Bool.and_eq_true] at hb
    rw [wordsOf_append_ws a t c hb.1, wordsOf_all_ws t hb.2]
    simp

theorem takeWhile_all_sat (p : Char → Bool) (l : List Char) :
    (l.takeWhile p).all p = true := by
  induction l with
  | nil => rfl
  | cons c t ih =>
    simp only [List.takeWhile]
    by_cases h : p c
    · simp [h, ih]
    · simp [h]

theorem wordsOf_dropWhile_ws (s : List Char) :
    wordsOf (s.dropWhile goIsSpace) = wordsOf s := by
  induction s with
  | nil => rfl
  | cons c t ih =>
    simp only [List.dropWhile]
    by_cases h : goIsSpace c
    · simp only [h, if_pos]
      rw [ih, wordsOf_ws_cons c t h]
    · simp [h]

theorem wordsOf_trimSpace (s : List Char) : wordsOf (trimSpace s) = wordsOf s := by
  unfold trimSpace
  rw [← wordsOf_dropWhile_ws s]
  set u := s.dropWhile goIsSpace with hu
  have hdecomp : u = (u.reverse.dropWhile goIsSpace).reverse
      ++ (u.reverse.takeWhile goIsSpace).reverse := by
    calc u = u.reverse.reverse := by simp
      _ = (u.reverse.takeWhile goIsSpace ++ u.reverse.dropWhile goIsSpace).reverse := by
            rw [List.takeWhile_append_dropWhile]
      _ = (u.reverse.dropWhile goIsSpace).reverse
            ++ (u.reverse.takeWhile goIsSpace).reverse := by
            rw [List.reverse_append]
  have hall : ((u.reverse.takeWhile goIsSpace).reverse).all goIsSpace = true := by
    rw [List.all_eq_true]
    intro x hx
    rw [List.mem_reverse] at hx
    have := takeWhile_all_sat goIsSpace u.reverse
    rw [List.all_eq_true] at this
    exact this x hx
  conv_rhs => rw [hdecomp]
  rw [wordsOf_append_all_ws _ _ hall]

/-- Fuel-indexed predicate: every iteration of the `chunkText` loop finds a
space in its leading window, i.e. the hard-cut fallback of src/main.go lines
115-117 never fires. Mirrors the recursion of `chunkTextFuel`. -/
def noHardCutFuel : Nat → List Char → Nat → Bool
  | 0, _, _ => true
  | fuel + 1, input, size =>
    if size < input.length then
      match lastSpaceIdx (input.take size) with
      | none => false
      | some i => noHardCutFuel fuel (trimSpace (input.drop i)) size
    else true

/-- Every split of `chunkText input size` is made at a space. -/
def noHardCut (input : List Char) (size : Nat) : Bool :=
  noHardCutFuel (input.length + 1) input size

theorem wordsOf_rejoin_chunkTextFuel (size : Nat) :
    ∀ (fuel : Nat) (input : List Char), input.length < fuel →
      noHardCutFuel fuel input size = true →
      wordsOf (rejoinWithSpaces (chunkTextFuel fuel input size)) = wordsOf input := by
  intro fuel
  induction fuel with
  | zero => intro input hfuel _; omega
  | succ f ih =>
    intro input hfuel h
    by_cases hl : size < input.length
    · simp only [noHardCutFuel, if_pos hl] at h
      cases hsi : lastSpaceIdx (input.take size) with
      | none => rw [hsi] at h; simp at h
      | some i =>
        rw [hsi] at h
        have hgs : goSplit input size = i := by unfold goSplit; rw [hsi]
        have hsz : 1 ≤ size := by
          rcases Nat.eq_zero_or_pos size with h0 | h0
          · subst h0; simp [lastSpaceIdx] at hsi
          · exact h0
        obtain ⟨hi1, hi2, _⟩ := lastSpaceIdx_some_spec _ i hsi
        have hisize : i < size := by
          simp only [List.length_take] at hi1; omega
        have hilen : i < input.length := lt_trans hisize hl
        have hin : input.get? i = some ' ' := by
          rw [← List.get?_take hisize]; exact hi2
        have hdropi : input.drop i = ' ' :: input.drop (i + 1) := by
          rw [List.drop_eq_get_cons hilen]
          congr 1
          have := List.get?_eq_get hilen
          rw [this] at hin
          exact Option.some.inj hin
        have hwin : wordsOf input = wordsOf (input.take i) ++ wordsOf (input.drop (i + 1)) := by
          conv_lhs => rw [← List.take_append_drop i input, hdropi]
          exact wordsOf_append_ws _ _ ' ' (by decide)
        have hrlt : (trimSpace (input.drop i)).length < input.length := by
          have := rest_length_lt input size hsz hl
          rw [hgs] at this
          exact this
        have hrest_words : wordsOf (trimSpace (input.drop i)) = wordsOf (input.drop (i + 1)) := by
          rw [wordsOf_trimSpace, hdropi, wordsOf_ws_cons _ _ (by decide)]
        simp only [chunkTextFuel, if_pos hl, hgs]
        cases hrc : chunkTextFuel f (trimSpace (input.drop i)) size with
        | nil =>
          have hrest_nil : trimSpace (input.drop i) = [] := by
            have hirrel : chunkTextFuel f (trimSpace (input.drop i)) size
                = chunkText (trimSpace (input.drop i)) size :=
              chunkTextFuel_irrel size hsz f _ _ (by omega) (by omega)
            rw [hirrel] at hrc
            exact (chunkText_eq_nil_iff _ _).mp hrc
          have hd1 : wordsOf (input.drop (i + 1)) = [] := by
            rw [← hrest_words, hrest_nil]; rfl
          simp only [rejoinWithSpaces]
          rw [wordsOf_trimSpace, hwin, hd1]
          simp
        | cons d ds =>
          have hjoin : rejoinWithSpaces (trimSpace (input.take i) :: d :: ds)
              = trimSpace (input.take i) ++ ' ' :: rejoinWithSpaces (d :: ds) := rfl
          rw [hjoin, wordsOf_append_ws _ _ ' ' (by decide), ← hrc]
          rw [ih (trimSpace (input.drop i)) (by omega) h]
          rw [wordsOf_trimSpace, hrest_words, hwin]
    · simp only [chunkTextFuel, if_neg hl]
      by_cases h0 : 0 < input.length
      · rw [if_pos h0]; rfl
      · rw [if_neg h0]
        have : input = [] := List.length_eq_zero.mp (by omega)
        subst this
        rfl

/-- C3 counterexample: at T = "a\nb" and S = 2 the single split is the hard
cut at position 2 (the window "a\n" contains no space, witnessed by
lastSpaceIdx = none), so the claim reinserts no separator; but the newline
dropped by trimming separated two words, and the rejoined text "ab" is not
equal to T up to whitespace normalization ("ab" vs "a b"). -/
theorem chunkText_rejoin_cex :
    chunkText "a\nb".toList 2 = [['a'], ['b']] ∧
      lastSpaceIdx ("a\nb".toList.take 2) = none ∧
      normalizeWs (['a'] ++ ['b']) ≠ normalizeWs "a\nb".toList := by
  decide

/-- C3 (amended): for every text T and positive size S such that every
iteration of the chunking loop finds a space in its leading window (the
hard-cut fallback never fires — `noHardCut`), every split occurs on a space,
and concatenating the chunks of chunkText T S in order with a single-space
separator at each split reproduces T up to whitespace normalization. -/
theorem chunkText_rejoin_normalized (T : List Char) (S : Nat) (hS : 1 ≤ S)
    (h : noHardCut T S = true) :
    normalizeWs (rejoinWithSpaces (chunkText T S)) = normalizeWs T := by
  unfold normalizeWs
  congr 1
  exact wordsOf_rejoin_chunkTextFuel S (T.length + 1) T (by omega) h

/-- Witness for C3 (amended): at T = "ab cd e" and S = 3 the hypotheses hold
(every window contains a space) and the chunks "ab", "cd", "e" rejoined with
single spaces normalize back to T. -/
theorem chunkText_rejoin_normalized_witness :
    (1 ≤ 3 ∧ noHardCut "ab cd e".toList 3 = true) ∧
      normalizeWs (rejoinWithSpaces (chunkText "ab cd e".toList 3))
        = normalizeWs "ab cd e".toList :=
  ⟨⟨by decide, by decide⟩,
    chunkText_rejoin_normalized "ab cd e".toList 3 (by decide) (by decide)⟩

/-- C7 (amended): in every iteration of the chunking loop (remaining text
longer than size), the split point `goSplit` is the position of the last
SPACE character (U+0020) within the leading window of `size` characters when
the window contains a space — the space itself excluded from the emitted
chunk, which is built from the prefix strictly before the split point; only
when the window contains no space is the split made exactly at `size`.
(The claim said "whitespace"; the code searches for `" "` only.) -/
theorem chunkText_split_at_last_space (input : List Char) (size : Nat)
    (hsz : 1 ≤ size) (hlen : size < input.length) :
    (chunkText input size =
      trimSpace (input.take (goSplit input size)) ::
        chunkText (trimSpace (input.drop (goSplit input size))) size)
    ∧ (' ' ∈ input.take size →
        goSplit input size < size
        ∧ (input.take size).get? (goSplit input size) = some ' '
        ∧ ∀ j, goSplit input size < j → (input.take size).get? j ≠ some ' ')
    ∧ (' ' ∉ input.take size → goSplit input size = size) := by
  refine ⟨chunkText_cons input size hsz hlen, ?_, ?_⟩
  · intro hmem
    cases h : lastSpaceIdx (input.take size) with
    | none => exact absurd h (lastSpaceIdx_isSome_of_mem _ hmem)
    | some i =>
      obtain ⟨hi1, hi2, hi3⟩ := lastSpaceIdx_some_spec _ i h
      have hgs : goSplit input size = i := by unfold goSplit; rw [h]
      rw [hgs]
      refine ⟨?_, hi2, hi3⟩
      simp only [List.length_take] at hi1
      omega
  · intro hmem
    cases h : lastSpaceIdx (input.take size) with
    | some i =>
      have h2 := (lastSpaceIdx_some_spec _ i h).2.1
      exact absurd (List.get?_mem h2) hmem
    | none => unfold goSplit; rw [h]

/-- Witness for C7 (amended): at input = "ab cd" and size = 3, the hypotheses
hold and the loop emits trimSpace of the window prefix before the split. -/
theorem chunkText_split_at_last_space_witness :
    (1 ≤ 3 ∧ 3 < "ab cd".toList.length) ∧
      chunkText "ab cd".toList 3 =
        trimSpace ("ab cd".toList.take (goSplit "ab cd".toList 3)) ::
          chunkText (trimSpace ("ab cd".toList.drop (goSplit "ab cd".toList 3))) 3 :=
  ⟨⟨by decide, by decide⟩,
    (chunkText_split_at_last_space "ab cd".toList 3 (by decide) (by decide)).1⟩

/-- C7 counterexample: at input = "a\tbcd" and size = 3, the window is
"a\tb"; its last whitespace character is the tab at index 1 (the only later
character, b at index 2, is not whitespace), so the claim predicts a split at
1 and a first chunk "a" with the whitespace excluded. The code looks for a
space only, finds none, hard-cuts at size = 3, and emits "a\tb" — which is
not "a" and still contains the whitespace. -/
theorem chunkText_split_whitespace_cex :
    goIsSpace '\t' = true
    ∧ ("a\tbcd".toList.take 3) = ['a', '\t', 'b']
    ∧ goIsSpace 'b' = false
    ∧ chunkText "a\tbcd".toList 3 = [['a', '\t', 'b'], ['c', 'd']]
    ∧ trimSpace ("a\tbcd".toList.take 1) = ['a']
    ∧ (['a', '\t', 'b'] : List Char) ≠ ['a'] := by
  decide

-- ===================================================================
-- Orchestrator: synthesizeChunks (src/main.go lines 28-109).
-- ===================================================================

/-- Audio bytes returned by the synthesis service. -/
abbrev Audio := List Nat

/-- The error a synthesis task returns to the errgroup on a failed remote
call (src/main.go lines 88-93); it carries the chunk, the language code and
the voice, in that order. -/
inductive SynthErr where
  | remote (chunk : String) (languageCode : String) (voice : String)
  deriving DecidableEq

/-- The errors synthesizeChunks can return (src/main.go lines 34-48, 50-53,
104-106): a triggered context, the empty-voice and empty-language-code
precondition errors, a failed client construction, and the wrapped first
task error from errGroup.Wait. -/
inductive GoError where
  | ctxErr
  | emptyVoice
  | emptyLanguageCode
  | newClient
  | groupWait (e : SynthErr)
  deriving DecidableEq

/-- One synthesis task (the closure of src/main.go lines 72-101), run at its
place in the completion order. State: the ResultTable `chunkMap` (one
optional slot per chunk index) and the first error observed by the errgroup.
If an earlier task already failed, the group context is cancelled and this
task's remote call fails without writing its slot; its (later) error is not
the one errGroup.Wait returns. Otherwise the task calls the service and
either writes its reserved slot `i` or records its error, which cancels the
group. -/
def taskStep (f : String → String → String → Option Audio)
    (voice languageCode : String) (chunks : List String)
    (st : List (Option Audio) × Option SynthErr) (i : Nat) :
    List (Option Audio) × Option SynthErr :=
  match st.2 with
  | some _ => st
  | none =>
    match f (chunks.getD i "") voice languageCode with
    | some audio => (st.1.set i (some audio), none)
    | none => (st.1, some (.remote (chunks.getD i "") languageCode voice))

/-- Model of `synthesizeChunks` (src/main.go lines 28-109).
`ctxCancelled` models `ctx.Err() != nil`, constant over the call;
`newClientOk` models whether `texttospeech.NewClient` succeeds; `f` is the
remote service; `order` is the completion order of the concurrently running
tasks (errGroup.Wait returns only after every launched task finished, so a
full run is a permutation of the chunk indices). The result mirrors the Go
pair ([][]byte, error): `none` in the first component is Go's nil slice. -/
def synthesizeChunks (ctxCancelled : Bool) (newClientOk : Bool)
    (f : String → String → String → Option Audio)
    (order : List Nat) (chunks : List String) (voice languageCode : String) :
    Option (List Audio) × Option GoError :=
  if ctxCancelled then (none, some .ctxErr)
  else if voice = "" then (none, some .emptyVoice)
  else if languageCode = "" then (none, some .emptyLanguageCode)
  else if chunks.length = 0 then (none, none)
  else if newClientOk = false then (none, some .newClient)
  else
    let final := order.foldl (taskStep f voice languageCode chunks)
      (List.replicate chunks.length none, none)
    match final.2 with
    | some e => (none, some (.groupWait e))
    | none => (some (final.1.map (fun slot => slot.getD [])), none)

-- Helper facts about the task fold.

theorem taskStep_length (f : String → String → String → Option Audio)
    (voice languageCode : String) (chunks : List String)
    (st : List (Option Audio) × Option SynthErr) (i : Nat) :
    (taskStep f voice languageCode chunks st i).1.length = st.1.length := by
  unfold taskStep
  cases st.2 with
  | some e => rfl
  | none =>
    cases f (chunks.getD i "") voice languageCode with
    | some audio => simp
    | none => rfl

theorem foldl_taskStep_err_mono (f : String → String → String → Option Audio)
    (voice languageCode : String) (chunks : List String) :
    ∀ (order : List Nat) (st : List (Option Audio) × Option SynthErr),
      st.2 ≠ none →
      (order.foldl (taskStep f voice languageCode chunks) st).2 ≠ none := by
  intro order
  induction order with
  | nil => intro st h; exact h
  | cons i rest ih =>
    intro st h
    simp only [List.foldl_cons]
    apply ih
    unfold taskStep
    cases hst : st.2 with
    | some e => simp [hst]
    | none => exact absurd hst h

theorem get?_set_self_of_lt {α : Type} (l : List α) (i : Nat) (a : α)
    (h : i < l.length) : (l.set i a).get? i = some a := by
  induction l generalizing i with
  | nil => simp at h
  | cons x t ih =>
    cases i with
    | zero => rfl
    | succ i =>
      simp only [List.set]
      exact ih i (by simpa using h)

theorem get?_set_of_ne {α : Type} (l : List α) (i j : Nat) (a : α)
    (h : i ≠ j) : (l.set i a).get? j = l.get? j := by
  induction l generalizing i j with
  | nil => rfl
  | cons x t ih =>
    cases i with
    | zero =>
      cases j with
      | zero => exact absurd rfl h
      | succ j => rfl
    | succ i =>
      cases j with
      | zero => rfl
      | succ j =>
        simp only [List.set]
        exact ih i j (fun he => h (by rw [he]))

-- After an all-success run, every slot whose index occurs in the completion
-- order holds exactly the audio the service returned for its chunk.

theorem foldl_taskStep_success (f : String → String → String → Option Audio)
    (voice languageCode : String) (chunks : List String)
    (hF : ∀ i, i < chunks.length →
      (f (chunks.getD i "") voice languageCode).isSome = true) :
    ∀ (order : List Nat), (∀ i ∈ order, i < chunks.length) →
    ∀ (st : List (Option Audio) × Option SynthErr),
      st.2 = none → st.1.length = chunks.length →
      (order.foldl (taskStep f voice languageCode chunks) st).2 = none ∧
      (order.foldl (taskStep f voice languageCode chunks) st).1.length = chunks.length ∧
      ∀ j, j < chunks.length →
        (order.foldl (taskStep f voice languageCode chunks) st).1.get? j
          = if j ∈ order then some (f (chunks.getD j "") voice languageCode)
            else st.1.get? j := by
  intro order
  induction order with
  | nil =>
    intro _ st h2 h1
    refine ⟨h2, h1, ?_⟩
    intro j _
    simp
  | cons k rest ih =>
    intro horder st h2 h1
    have hk : k < chunks.length := horder k (List.mem_cons_self k rest)
    obtain ⟨audio, haud⟩ := Option.isSome_iff_exists.mp (hF k hk)
    have hstep : taskStep f voice languageCode chunks st k
        = (st.1.set k (some audio), none) := by
      unfold taskStep
      rw [h2, haud]
    simp only [List.foldl_cons, hstep]
    have hrest : ∀ i ∈ rest, i < chunks.length :=
      fun i hi => horder i (List.mem_cons_of_mem k hi)
    obtain ⟨g2, g1, g3⟩ := ih hrest (st.1.set k (some audio), none) rfl (by simpa using h1)
    refine ⟨g2, g1, ?_⟩
    intro j hj
    rw [g3 j hj]
    by_cases hjr : j ∈ rest
    · rw [if_pos hjr, if_pos (List.mem_cons_of_mem k hjr)]
    · rw [if_neg hjr]
      by_cases hjk : j = k
      · subst hjk
        rw [if_pos (List.mem_cons_self j rest)]
        show (st.1.set j (some audio)).get? j = some (f (chunks.getD j "") voice languageCode)
        rw [get?_set_self_of_lt st.1 j (some audio) (by omega), haud]
      · rw [if_neg (by
          intro hmem
          rcases List.mem_cons.mp hmem with he | hr
          · exact hjk he
          · exact hjr hr)]
        show (st.1.set k (some audio)).get? j = st.1.get? j
        exact get?_set_of_ne st.1 k j (some audio) (fun he => hjk he.symm)

-- If a task for a chunk whose remote call fails occurs in the completion
-- order, the fold ends with an error recorded.

theorem foldl_taskStep_fail (f : String → String → String → Option Audio)
    (voice languageCode : String) (chunks : List String) (i : Nat)
    (hfi : f (chunks.getD i "") voice languageCode = none) :
    ∀ (order : List Nat) (st : List (Option Audio) × Option SynthErr),
      i ∈ order →
      (order.foldl (taskStep f voice languageCode chunks) st).2 ≠ none := by
  intro order
  induction order with
  | nil => intro st h; simp at h
  | cons k rest ih =>
    intro st hmem
    simp only [List.foldl_cons]
    rcases List.mem_cons.mp hmem with he | hr
    · subst he
      by_cases hst : st.2 = none
      · apply foldl_taskStep_err_mono
        unfold taskStep
        rw [hst, hfi]
        simp
      · apply foldl_taskStep_err_mono
        unfold taskStep
        cases hst2 : st.2 with
        | none => exact absurd hst2 hst
        | some e => simp; exact hst
    · exact ih (taskStep f voice languageCode chunks st k) hr

/-- C1: for every chunk sequence, non-empty voice, non-empty language code,
and a synthesis service modelled as a pure function g (the remote call F
returning some (g ...) on every chunk), synthesizeChunks — with the context
not cancelled and client construction succeeding — returns no error and a
sequence of the same length as the chunk sequence whose element at index i
is exactly g chunks[i] voice languageCode, for EVERY completion order of the
concurrent tasks (any permutation of the chunk indices). Go's nil slice is
`none`; `getD []` reads the returned sequence. -/
theorem synthesizeChunks_all_success
    (F : String → String → String → Option Audio)
    (g : String → String → String → Audio)
    (order : List Nat) (chunks : List String) (voice languageCode : String)
    (hv : voice ≠ "") (hl : languageCode ≠ "")
    (hperm : order.Perm (List.range chunks.length))
    (hF : ∀ c ∈ chunks, F c voice languageCode = some (g c voice languageCode)) :
    (synthesizeChunks false true F order chunks voice languageCode).2 = none ∧
    ((synthesizeChunks false true F order chunks voice languageCode).1.getD [])
      = chunks.map (fun c => g c voice languageCode) := by
  unfold synthesizeChunks
  rw [if_neg (by simp), if_neg hv, if_neg hl]
  by_cases hn : chunks.length = 0
  · rw [if_pos hn]
    have he : chunks = [] := List.length_eq_zero.mp hn
    subst he
    simp
  · rw [if_neg hn, if_neg (by simp)]
    have horder : ∀ i ∈ order, i < chunks.length := by
      intro i hi
      rw [List.Perm.mem_iff hperm] at hi
      exact List.mem_range.mp hi
    have hgetD : ∀ i (hi : i < chunks.length),
        chunks.getD i "" = chunks.get ⟨i, hi⟩ := by
      intro i hi
      rw [List.getD_eq_get?, List.get?_eq_get hi]
      rfl
    have hFi : ∀ i, i < chunks.length →
        F (chunks.getD i "") voice languageCode
          = some (g (chunks.getD i "") voice languageCode) := by
      intro i hi
      rw [hgetD i hi]
      exact hF _ (List.get_mem chunks i hi)
    obtain ⟨h2, h1, h3⟩ :=
      foldl_taskStep_success F voice languageCode chunks
        (fun i hi => by rw [hFi i hi]; rfl) order horder
        (List.replicate chunks.length none, none) rfl (by simp)
    simp only [h2]
    refine ⟨by trivial, ?_⟩
    simp only [Option.getD_some]
    apply List.ext_get?
    intro j
    by_cases hj : j < chunks.length
    · have hjo : j ∈ order := by
        rw [List.Perm.mem_iff hperm]
        exact List.mem_range.mpr hj
      rw [List.get?_map, h3 j hj, if_pos hjo, List.get?_map,
        List.get?_eq_get hj, hFi j hj, hgetD j hj]
      rfl
    · have hlen1 : ((order.foldl (taskStep F voice languageCode chunks)
          (List.replicate chunks.length none, none)).1.map
            (fun slot => slot.getD [])).length = chunks.length := by
        simp [h1]
      rw [List.get?_eq_none.mpr (by simp [hlen1]; omega),
        List.get?_eq_none.mpr (by simp; omega)]

/-- Witness service for C1: succeeds on every chunk with the audio being the
one-byte list holding the chunk length. -/
def demoService : String → String → String → Option Audio :=
  fun c _ _ => some [c.length]

/-- Pure audio function matching demoService. -/
def demoAudio : String → String → String → Audio :=
  fun c _ _ => [c.length]

/-- Witness for C1: two chunks, completion order reversed ([1, 0]); the
result carries no error and is exactly the per-chunk audio in index order. -/
theorem synthesizeChunks_all_success_witness :
    (("v" : String) ≠ "" ∧ ("l" : String) ≠ ""
      ∧ ([1, 0] : List Nat).Perm (List.range (["ab", "c"] : List String).length)
      ∧ ∀ c ∈ (["ab", "c"] : List String),
          demoService c "v" "l" = some (demoAudio c "v" "l")) ∧
    ((synthesizeChunks false true demoService [1, 0] ["ab", "c"] "v" "l").2 = none ∧
      ((synthesizeChunks false true demoService [1, 0] ["ab", "c"] "v" "l").1.getD [])
        = (["ab", "c"] : List String).map (fun c => demoAudio c "v" "l")) :=
  ⟨⟨by decide, by decide, by decide, by decide⟩,
    synthesizeChunks_all_success demoService demoAudio [1, 0] ["ab", "c"] "v" "l"
      (by decide) (by decide) (by decide) (by decide)⟩

/-- C2: for every non-empty chunk sequence, non-empty voice and language
code, non-cancelled context and any client-construction outcome: if at least
one per-chunk remote call fails, synthesizeChunks returns an error together
with a nil result (none), never a partial result with the audio of the tasks
that succeeded — for every completion order of the tasks. -/
theorem synthesizeChunks_any_failure
    (F : String → String → String → Option Audio)
    (order : List Nat) (chunks : List String) (voice languageCode : String)
    (newClientOk : Bool)
    (hne : chunks ≠ []) (hv : voice ≠ "") (hl : languageCode ≠ "")
    (hperm : order.Perm (List.range chunks.length))
    (hfail : ∃ c ∈ chunks, F c voice languageCode = none) :
    (synthesizeChunks false newClientOk F order chunks voice languageCode).1 = none ∧
    (synthesizeChunks false newClientOk F order chunks voice languageCode).2 ≠ none := by
  unfold synthesizeChunks
  rw [if_neg (by simp), if_neg hv, if_neg hl,
    if_neg (fun h => hne (List.length_eq_zero.mp h))]
  by_cases hok : newClientOk = false
  · rw [if_pos hok]
    exact ⟨rfl, by simp⟩
  · rw [if_neg hok]
    obtain ⟨c, hc, hcf⟩ := hfail
    obtain ⟨i, hi⟩ := List.mem_iff_get.mp hc
    have hgetD : chunks.getD i.val "" = c := by
      rw [List.getD_eq_get?, List.get?_eq_get i.isLt]
      simpa using hi
    have hfi : F (chunks.getD i.val "") voice languageCode = none := by
      rw [hgetD]; exact hcf
    have hmem : i.val ∈ order := by
      rw [List.Perm.mem_iff hperm]
      exact List.mem_range.mpr i.isLt
    have hErr := foldl_taskStep_fail F voice languageCode chunks i.val hfi order
      (List.replicate chunks.length none, none) hmem
    cases hfin : (order.foldl (taskStep F voice languageCode chunks)
        (List.replicate chunks.length none, none)).2 with
    | none => exact absurd hfin hErr
    | some e => simp only [hfin]; exact ⟨by simp, by simp⟩

/-- Witness service for C2: fails on the chunk "c", succeeds elsewhere. -/
def failService : String → String → String → Option Audio :=
  fun c _ _ => if c = "c" then none else some []

/-- Witness for C2: two chunks of which one fails; for the completion order
[1, 0] the call returns a nil result and an error. -/
theorem synthesizeChunks_any_failure_witness :
    ((["ab", "c"] : List String) ≠ [] ∧ ("v" : String) ≠ "" ∧ ("l" : String) ≠ ""
      ∧ ([1, 0] : List Nat).Perm (List.range (["ab", "c"] : List String).length)
      ∧ ∃ c ∈ (["ab", "c"] : List String), failService c "v" "l" = none) ∧
    ((synthesizeChunks false true failService [1, 0] ["ab", "c"] "v" "l").1 = none ∧
      (synthesizeChunks false true failService [1, 0] ["ab", "c"] "v" "l").2 ≠ none) :=
  ⟨⟨by decide, by decide, by decide, by decide, by decide⟩,
    synthesizeChunks_any_failure failService [1, 0] ["ab", "c"] "v" "l" true
      (by decide) (by decide) (by decide) (by decide) (by decide)⟩

/-- A trivial concrete service for closed instances: always succeeds with
empty audio. -/
def constService : String → String → String → Option Audio :=
  fun _ _ _ => some []

/-- C8 (amended): for every NON-EMPTY voice and non-empty language code,
calling synthesizeChunks with an empty chunk sequence and a non-cancelled
context returns the empty result (Go nil slice) with no error. (The claim
said "every voice string and every language code string", but the empty-voice
and empty-language-code guards run before the empty-chunks check.) -/
theorem synthesizeChunks_empty_chunks (newClientOk : Bool)
    (F : String → String → String → Option Audio) (order : List Nat)
    (voice languageCode : String) (hv : voice ≠ "") (hl : languageCode ≠ "") :
    synthesizeChunks false newClientOk F order [] voice languageCode
      = (none, none) := by
  unfold synthesizeChunks
  rw [if_neg (by simp), if_neg hv, if_neg hl,
    if_pos (show ([] : List String).length = 0 from rfl)]

/-- Witness for C8 (amended): non-empty voice and language code with an
empty chunk sequence yield the empty result and no error. -/
theorem synthesizeChunks_empty_chunks_witness :
    (("v" : String) ≠ "" ∧ ("en-US" : String) ≠ "") ∧
      synthesizeChunks false true constService [] [] "v" "en-US" = (none, none) :=
  ⟨⟨by decide, by decide⟩,
    synthesizeChunks_empty_chunks true constService [] "v" "en-US"
      (by decide) (by decide)⟩

/-- C8 counterexample: with an empty chunk sequence and an EMPTY voice (and
non-cancelled context) the call returns the EmptyVoice error, not the
empty-success result claimed for "every voice string". -/
theorem synthesizeChunks_empty_chunks_cex :
    synthesizeChunks false true constService [] [] "" "en-US"
        = (none, some .emptyVoice) ∧
      ((none, some GoError.emptyVoice)
        ≠ ((none : Option (List Audio)), (none : Option GoError))) := by
  exact ⟨rfl, by decide⟩

/-- C10: synthesizeChunks evaluates its guards in the fixed order: cancelled
context, empty voice, empty language code, empty chunk sequence (src/main.go
lines 34-48); consequently an empty chunk sequence together with an empty
voice (resp. non-empty voice and empty language code) yields the EmptyVoice
(resp. EmptyLanguageCode) error rather than the empty-success result. -/
theorem synthesizeChunks_guard_order (newClientOk : Bool)
    (F : String → String → String → Option Audio) (order : List Nat)
    (chunks : List String) (voice languageCode : String) :
    (synthesizeChunks true newClientOk F order chunks voice languageCode
        = (none, some .ctxErr))
    ∧ (voice = "" →
        synthesizeChunks false newClientOk F order chunks voice languageCode
          = (none, some .emptyVoice))
    ∧ (voice ≠ "" → languageCode = "" →
        synthesizeChunks false newClientOk F order chunks voice languageCode
          = (none, some .emptyLanguageCode))
    ∧ (voice ≠ "" → languageCode ≠ "" → chunks = [] →
        synthesizeChunks false newClientOk F order chunks voice languageCode
          = (none, none)) := by
  refine ⟨?_, ?_, ?_, ?_⟩
  · unfold synthesizeChunks
    rw [if_pos rfl]
  · intro h
    unfold synthesizeChunks
    rw [if_neg (by simp), if_pos h]
  · intro h1 h2
    unfold synthesizeChunks
    rw [if_neg (by simp), if_neg h1, if_pos h2]
  · intro h1 h2 h3
    subst h3
    unfold synthesizeChunks
    rw [if_neg (by simp), if_neg h1, if_neg h2,
      if_pos (show ([] : List String).length = 0 from rfl)]

/-- Witness for C10: with empty chunks, an empty voice wins over the
empty-chunks success (EmptyVoice), and an empty language code with non-empty
voice wins likewise (EmptyLanguageCode). -/
theorem synthesizeChunks_guard_order_witness :
    synthesizeChunks false true constService [] [] "" "en-US"
        = (none, some .emptyVoice) ∧
      synthesizeChunks false true constService [] [] "v" ""
        = (none, some .emptyLanguageCode) :=
  ⟨(synthesizeChunks_guard_order true constService [] [] "" "en-US").2.1 rfl,
    (synthesizeChunks_guard_order true constService [] [] "v" "").2.2.1
      (by decide) rfl⟩

-- ===================================================================
-- Output writing: the final loop of main (src/main.go lines 214-218).
-- ===================================================================

/-- Model of the output loop of `main` (src/main.go lines 214-218):
`for _, chunk := range chunkMap { outFile.Write(chunk) }`. Each iteration
issues exactly one Write call with that chunk's bytes; the returned list is
the sequence of Write calls made to the output file, in order. A failed
write is logged and the loop continues, so every chunk is attempted. -/
def outputWriteCalls (chunkMap : List Audio) : List Audio :=
  chunkMap.foldl (fun calls chunk => calls ++ [chunk]) []

theorem foldl_append_singleton (m : List Audio) :
    ∀ acc : List Audio, m.foldl (fun calls chunk => calls ++ [chunk]) acc = acc ++ m := by
  induction m with
  | nil => intro acc; simp
  | cons c t ih =>
    intro acc
    simp only [List.foldl_cons, ih]
    simp

/-- C9 (amended): after a fully successful synthesis batch the program
writes the per-chunk audio byte sequences to the output sink in index order,
one write call per chunk (not a single call); the concatenation of all
written byte sequences equals the concatenation of the per-chunk audio. -/
theorem outputWriteCalls_per_chunk (chunkMap : List Audio) :
    outputWriteCalls chunkMap = chunkMap
    ∧ (outputWriteCalls chunkMap).length = chunkMap.length
    ∧ (outputWriteCalls chunkMap).join = chunkMap.join := by
  have h : outputWriteCalls chunkMap = chunkMap := by
    unfold outputWriteCalls
    rw [foldl_append_singleton chunkMap []]
    rfl
  exact ⟨h, by rw [h], by rw [h]⟩

/-- C9 counterexample: for a two-chunk batch ([0] and [1]) the program makes
two write calls, not one, and no single call carries the concatenation
[0, 1] of the assembled output. -/
theorem outputWriteCalls_not_single :
    outputWriteCalls [[0], [1]] = [[0], [1]]
    ∧ (outputWriteCalls [[0], [1]]).length = 2
    ∧ (outputWriteCalls [[0], [1]]).length ≠ 1
    ∧ ([0, 1] : Audio) ∉ outputWriteCalls [[0], [1]]
    ∧ (outputWriteCalls [[0], [1]]).join = [0, 1] := by
  decide
